import Mathlib

/-!
# Shallow embedding of the ProtoTree routing core

This file embeds the tree-routing, leaf-selection, leaf-distribution-update and
rationalization code of `src/proto/models.py` (classes `ProtoTree`, `TreeSection`,
`LeafRationalization`) and the duplicated leaf-selection helpers of
`src/prototree/models.py`, and proves properties about them.

## Modelling conventions

* The repository's `proto/node.py` (defining `Node`, `InternalNode`, `Leaf`,
  `NodeProbabilities`, `create_tree`) and `proto/img_similarity.py` are not part of the
  provided sources, only their callers are; those parts are modelled from the spec and
  are marked `Modelled from the spec:` in their doc comments.
* The tree is a perfect binary tree of a fixed depth `D` (spec section 3).  A node is
  addressed by its path from the root: `false` = left child, `true` = right child.
  Internal nodes are the paths of length `< D`, leaves the paths of length `= D`.
  Distinct Python node objects correspond to distinct paths, so paths serve as the
  dictionary keys that node identities serve as in the source.
* All tensors in the source hold *log-space* values (`log_p_right`, `log_p_arrival`,
  logits, ...).  Since `Real.log`/`Real.exp` are noncomputable, the embedding carries
  every such value through the strictly monotone bijection `exp`: a source variable
  `log_v` is represented by the rational `v = exp(log_v)`.  Under this bijection,
  - log-space addition (`log_p_arrival + log_p_right`) becomes multiplication,
  - the stable complement `log(1 - exp(log_p_right))` becomes `1 - p_right`,
  - a comparison `log_v > -log 2` becomes `v > 1/2` (`log` is strictly monotone),
  - `exp(logsumexp(...))` becomes a sum of products of the exponentiated terms, and
  - `exp(a - b)` becomes `a' / b'`,
  so every definition below is the element-wise image of the corresponding source
  line, and every order/equality statement transfers verbatim.
* A tensor of shape `(batch_size,)` is a `List ℚ`; a tensor of shape
  `(batch_size, num_classes)` is a `List (List ℚ)` (list of rows).
-/

/-- A node of the perfect binary tree, addressed by its path from the root
(`false` = go to the left child, `true` = go to the right child).  The root is `[]`. -/
abbrev TreePath := List Bool

namespace ProtoTree

/-- Modelled from the spec: `node.py` is absent from the sources.  Spec section 3:
`is_right_child` is "defined for every non-root node and fixed at construction"; a node
is a right child exactly when the last step of its path goes right.  (The default for
the root is never used by the embedded code paths.) -/
def isRightChild (p : TreePath) : Bool := p.getLastD false

/-- Modelled from the spec: `node.py` is absent from the sources.  Spec section 4.1:
`ancestors` is the ordered root-to-node chain; per the section-3 invariant "each leaf's
ancestor chain has length exactly D", the chain consists of the node's strict ancestors
(its proper prefixes), ordered from the root down to the parent. -/
def ancestors (p : TreePath) : List TreePath :=
  (List.range p.length).map fun i => p.take i

/-- Modelled from the spec: `node.py` is absent from the sources.  The leaves of the
subtree rooted at `node` in a tree of depth `depth`, enumerated left-to-right (a fixed,
reproducible traversal order, spec section 4.1).  `Node.leaves` is `leavesFrom depth`
applied to the node's path; `root.leaves` is `leavesFrom depth []`. -/
def leavesFrom (depth : ℕ) (node : TreePath) : List TreePath :=
  if depth ≤ node.length then [node]
  else leavesFrom depth (node ++ [false]) ++ leavesFrom depth (node ++ [true])
termination_by depth - node.length
decreasing_by
  all_goals simp only [List.length_append, List.length_cons, List.length_nil]; omega

/-- Modelled from the spec: `node.py` is absent from the sources.
`Node.descendant_internal_nodes` for the subtree rooted at `node`: all internal nodes
(paths of length `< depth`), in a fixed pre-order traversal (spec section 4.1 requires
only a fixed, reproducible order). -/
def descendantInternalNodes (depth : ℕ) (node : TreePath) : List TreePath :=
  if depth ≤ node.length then []
  else
    node :: (descendantInternalNodes depth (node ++ [false]) ++
             descendantInternalNodes depth (node ++ [true]))
termination_by depth - node.length
decreasing_by
  all_goals simp only [List.length_append, List.length_cons, List.length_nil]; omega

/-- `TreeSection.__init__`: `node_to_proto_idx = {node: idx for idx, node in
enumerate(self.tree_root.descendant_internal_nodes)}` — each internal node's position
in the enumeration order. -/
def nodeToProtoIdx (depth : ℕ) (p : TreePath) : ℕ :=
  (descendantInternalNodes depth []).indexOf p

/-- Modelled from the spec: `node.py` is absent from the sources.  `NodeProbabilities`
holds `log_p_arrival` and `log_p_right`, each of tensor shape `(batch_size,)` (spec
section 3).  Per the file-level convention the embedding stores the exponentiated
values `pArrival = exp(log_p_arrival)` and `pRight = exp(log_p_right)`. -/
structure NodeProbabilities where
  pArrival : List ℚ
  pRight : List ℚ
  deriving Repr, DecidableEq, Inhabited

namespace NodeProbabilities

/-- Spec section 3: "`log_p_left` is derived as `log(1 − exp(log_p_right))`"; in
exponentiated form, `1 - pRight`, element-wise. -/
def pLeft (np : NodeProbabilities) : List ℚ := np.pRight.map fun r => 1 - r

/-- `log_p_arrival_left = log_p_arrival + log_p_left` (a child's arrival is the
parent's arrival plus the branch log-probability, spec section 4.2); exponentiated:
element-wise product. -/
def pArrivalLeft (np : NodeProbabilities) : List ℚ :=
  List.zipWith (· * ·) np.pArrival np.pLeft

/-- `log_p_arrival_right = log_p_arrival + log_p_right`; exponentiated:
element-wise product. -/
def pArrivalRight (np : NodeProbabilities) : List ℚ :=
  List.zipWith (· * ·) np.pArrival np.pRight

/-- Modelled from the spec: the `batch_size` of a `NodeProbabilities` is the batch
dimension of its tensors (spec section 3: shape `(batch_size,)`). -/
def batchSize (np : NodeProbabilities) : ℕ := np.pArrival.length

end NodeProbabilities

/-- Association-list lookup, first match wins — the semantics of indexing the Python
`dict[Node, NodeProbabilities]` built by `_node_to_probs_from_p_right` (keys are
inserted at most once, so first match is the unique match). -/
def lookupProbs : List (TreePath × NodeProbabilities) → TreePath → Option NodeProbabilities
  | [], _ => none
  | (q, np) :: rest, p => if q = p then some np else lookupProbs rest p

/-- `TreeSection._node_to_probs_from_p_right`, inner function `add_strict_descendants`:
adds entries for all strict descendants of `node` to the result, where `nProbs` is the
entry already recorded for `node` (`result[node]` in the source).  The guard
`depth ≤ node.length` is `node.is_leaf` (tree nodes have path length at most `depth`,
with equality exactly at leaves).  Source lines 486–509 of `src/proto/models.py`:

    result[node.left]  = NodeProbabilities(log_p_arrival=n_probs.log_p_arrival_left,
                                           log_p_right=node_to_log_p_right[node.left])
    result[node.right] = NodeProbabilities(log_p_arrival=n_probs.log_p_arrival_right,
                                           log_p_right=node_to_log_p_right[node.right])

`pRightOf` is the `node_to_log_p_right` mapping in exponentiated form. -/
def addStrictDescendants (depth : ℕ) (pRightOf : TreePath → List ℚ)
    (node : TreePath) (nProbs : NodeProbabilities) :
    List (TreePath × NodeProbabilities) :=
  if depth ≤ node.length then []
  else
    (node ++ [false],
      { pArrival := nProbs.pArrivalLeft, pRight := pRightOf (node ++ [false]) }) ::
    (node ++ [true],
      { pArrival := nProbs.pArrivalRight, pRight := pRightOf (node ++ [true]) }) ::
      (addStrictDescendants depth pRightOf (node ++ [false])
        { pArrival := nProbs.pArrivalLeft, pRight := pRightOf (node ++ [false]) } ++
       addStrictDescendants depth pRightOf (node ++ [true])
        { pArrival := nProbs.pArrivalRight, pRight := pRightOf (node ++ [true]) })
termination_by depth - node.length
decreasing_by
  all_goals simp only [List.length_append, List.length_cons, List.length_nil]; omega

/-- The root's `NodeProbabilities`: `log_p_arrival = torch.zeros_like(root_log_p_right)`
(probability 1 for every sample, hence `replicate _ 1` after exponentiation) and
`log_p_right = node_to_log_p_right[root]`. -/
def rootProbs (pRightOf : TreePath → List ℚ) : NodeProbabilities :=
  { pArrival := List.replicate (pRightOf []).length 1, pRight := pRightOf [] }

/-- `TreeSection._node_to_probs_from_p_right`: starts the result dict at
`{root: root_probs}` and then calls `add_strict_descendants(root)`. -/
def nodeToProbsFromPRight (depth : ℕ) (pRightOf : TreePath → List ℚ) :
    List (TreePath × NodeProbabilities) :=
  ([], rootProbs pRightOf) :: addStrictDescendants depth pRightOf [] (rootProbs pRightOf)

/-! ## Leaf selection (`TreeSection.get_predicting_leaves` and helpers) -/

/-- The loop body of `_get_predicting_leaves_greedily.get_leaf_for_sample`
(`src/proto/models.py` lines 571–581): walk from `cur` while `cur_node.is_internal`
(i.e. while `cur.length < depth`); go left when `log_p_left[sample_idx] > -log 2`
(exponentiated: `pLeft > 1/2`), else go right. -/
def greedyGo (depth : ℕ) (probsOf : TreePath → NodeProbabilities) (sampleIdx : ℕ)
    (cur : TreePath) : TreePath :=
  if depth ≤ cur.length then cur
  else if 1 / 2 < (probsOf cur).pLeft.getD sampleIdx 0 then
    greedyGo depth probsOf sampleIdx (cur ++ [false])
  else
    greedyGo depth probsOf sampleIdx (cur ++ [true])
termination_by depth - cur.length
decreasing_by
  all_goals simp only [List.length_append, List.length_cons, List.length_nil]; omega

/-- `TreeSection._get_predicting_leaves_greedily`: one greedy root-to-leaf walk per
sample index in `range(node_to_probs[root].batch_size)`. -/
def getPredictingLeavesGreedily (depth : ℕ)
    (probsOf : TreePath → NodeProbabilities) : List TreePath :=
  (List.range (probsOf []).batchSize).map fun i => greedyGo depth probsOf i []

/-- Model of the external primitive `torch.argmax(·, dim=1)` applied to one row: the
index of the first maximal value (PyTorch documents that, with several maximal values,
the index of the first is returned).  Out of the leaf-selection code's use, the row is
nonempty and the result is then an index of the row. -/
def argmaxIdx (l : List ℚ) : ℕ :=
  l.findIdx fun x => l.all fun y => decide (y ≤ x)

/-- The batch dimension of the `(bs, n_leaves)` tensor assembled by
`_get_max_p_arrival_leaves` (the common length of the concatenated per-leaf
`log_p_arrival` columns). -/
def arrivalBatchSize (leaves : List TreePath)
    (probsOf : TreePath → NodeProbabilities) : ℕ :=
  match leaves with
  | [] => 0
  | l :: _ => (probsOf l).pArrival.length

/-- `TreeSection._get_max_p_arrival_leaves` (`src/proto/models.py` lines 586–602):
concatenate the leaves' `log_p_arrival` columns into a `(bs, n_leaves)` tensor,
take the per-sample argmax over leaves, and return `[leaves[i] for i in idx]`.
Exponentiation preserves the argmax (`log` is strictly monotone). -/
def getMaxPArrivalLeaves (leaves : List TreePath)
    (probsOf : TreePath → NodeProbabilities) : List TreePath :=
  (List.range (arrivalBatchSize leaves probsOf)).map fun i =>
    leaves.getD (argmaxIdx (leaves.map fun leaf => (probsOf leaf).pArrival.getD i 0)) []

/-- `TreeSection.get_predicting_leaves` (`src/proto/models.py` lines 545–560): match on
the strategy name; unknown names raise `ValueError(f"Unknown sampling strategy {other}")`.
The Python `match` on string literals is a sequential equality test. -/
def getPredictingLeaves (depth : ℕ) (probsOf : TreePath → NodeProbabilities)
    (samplingStrategy : String) : Except String (List TreePath) :=
  if samplingStrategy = "sample_max" then
    .ok (getMaxPArrivalLeaves (leavesFrom depth []) probsOf)
  else if samplingStrategy = "greedy" then
    .ok (getPredictingLeavesGreedily depth probsOf)
  else
    .error ("Unknown sampling strategy " ++ samplingStrategy)

/-! ## The duplicated leaf-selection code of `src/prototree/models.py`

The free functions `get_predicting_leaves`, `_get_predicting_leaves_greedily` and
`_get_max_p_arrival_leaves` of `src/prototree/models.py` (lines 383–437) are embedded
separately below; each is translated from that file's own text. -/

/-- `_get_predicting_leaves_greedily.get_leaf_for_sample` of
`src/prototree/models.py` (lines 408–418). -/
def prototreeGreedyGo (depth : ℕ) (probsOf : TreePath → NodeProbabilities)
    (sampleIdx : ℕ) (cur : TreePath) : TreePath :=
  if depth ≤ cur.length then cur
  else if 1 / 2 < (probsOf cur).pLeft.getD sampleIdx 0 then
    prototreeGreedyGo depth probsOf sampleIdx (cur ++ [false])
  else
    prototreeGreedyGo depth probsOf sampleIdx (cur ++ [true])
termination_by depth - cur.length
decreasing_by
  all_goals simp only [List.length_append, List.length_cons, List.length_nil]; omega

/-- `_get_predicting_leaves_greedily` of `src/prototree/models.py` (lines 400–421). -/
def prototreeGetPredictingLeavesGreedily (depth : ℕ)
    (probsOf : TreePath → NodeProbabilities) : List TreePath :=
  (List.range (probsOf []).batchSize).map fun i => prototreeGreedyGo depth probsOf i []

/-- `_get_max_p_arrival_leaves` of `src/prototree/models.py` (lines 424–437). -/
def prototreeGetMaxPArrivalLeaves (leaves : List TreePath)
    (probsOf : TreePath → NodeProbabilities) : List TreePath :=
  (List.range (arrivalBatchSize leaves probsOf)).map fun i =>
    leaves.getD (argmaxIdx (leaves.map fun leaf => (probsOf leaf).pArrival.getD i 0)) []

/-- `get_predicting_leaves` of `src/prototree/models.py` (lines 383–397). -/
def prototreeGetPredictingLeaves (depth : ℕ) (probsOf : TreePath → NodeProbabilities)
    (samplingStrategy : String) : Except String (List TreePath) :=
  if samplingStrategy = "sample_max" then
    .ok (prototreeGetMaxPArrivalLeaves (leavesFrom depth []) probsOf)
  else if samplingStrategy = "greedy" then
    .ok (prototreeGetPredictingLeavesGreedily depth probsOf)
  else
    .error ("Unknown sampling strategy " ++ samplingStrategy)

/-! ## `ProtoTree.forward` -/

/-- Modelled from the spec: `node.py` is absent, so the distributed-mode
`self.tree_section.tree_root.forward(node_to_probs)` is modelled from spec
section 4.3: "logits are the arrival-probability-weighted sum over all leaves'
class vectors (every leaf contributes)".  `yVecOf leaf` is the leaf's class
vector (the exponentiated image of `leaf.y_logits()`), of length `numClasses`. -/
def distributedLogits (depth numClasses : ℕ) (probsOf : TreePath → NodeProbabilities)
    (yVecOf : TreePath → List ℚ) : List (List ℚ) :=
  (List.range (probsOf []).batchSize).map fun i =>
    (List.range numClasses).map fun c =>
      ((leavesFrom depth []).map fun leaf =>
        (probsOf leaf).pArrival.getD i 0 * (yVecOf leaf).getD c 0).sum

/-- The value returned by `ProtoTree.forward`: `(logits, node_to_probs,
predicting_leaves)`, where `predicting_leaves` is `None` for the distributed
strategy. -/
structure ForwardOutput where
  logits : List (List ℚ)
  nodeToProbs : List (TreePath × NodeProbabilities)
  predictingLeaves : Option (List TreePath)
  deriving Repr, DecidableEq

/-- `ProtoTree.forward` (`src/proto/models.py` lines 298–335).
`similarities = self.proto_base.forward(x)` is external (spec section 6); its
exponentiated image enters through `pRightOf`
(`get_node_to_log_p_right`: `log_p_right = -similarities[:, i]`, so
`pRightOf node = exp(-similarities[:, node_to_proto_idx[node]])`).  The Python
`match self.training, strategy` is a sequential test:
`case _, "distributed"`, then `case False, "sample_max" | "greedy"`, then a
catch-all raising
`ValueError(f"Invalid train/test and sampling strategy combination: ...")`. -/
def forward (training : Bool) (depth numClasses : ℕ) (yVecOf : TreePath → List ℚ)
    (pRightOf : TreePath → List ℚ) (strategy : String) : Except String ForwardOutput :=
  let nodeToProbs := nodeToProbsFromPRight depth pRightOf
  let probsOf : TreePath → NodeProbabilities :=
    fun p => (lookupProbs nodeToProbs p).getD ⟨[], []⟩
  if strategy = "distributed" then
    .ok { logits := distributedLogits depth numClasses probsOf yVecOf,
          nodeToProbs := nodeToProbs,
          predictingLeaves := none }
  else if training = false ∧ (strategy = "sample_max" ∨ strategy = "greedy") then
    match getPredictingLeaves depth probsOf strategy with
    | .ok ls =>
        -- logits = torch.cat([leaf.y_logits().unsqueeze(0) for leaf in predicting_leaves])
        .ok { logits := ls.map yVecOf, nodeToProbs := nodeToProbs,
              predictingLeaves := some ls }
    | .error e => .error e
  else
    .error ("Invalid train/test and sampling strategy combination: " ++ strategy)

/-! ## Leaf distribution learning (`TreeSection.update_leaf_distributions`) -/

/-- The mutable statistics of a `Leaf` (spec section 3): the class-distribution
parameter vector `dist_params` (length `num_classes`) and the EWMA update counter
`dist_param_update_count`. -/
structure LeafState where
  distParams : List ℚ
  updateCount : ℕ
  deriving Repr, DecidableEq

/-- `F.one_hot(y_true, num_classes=num_classes)` followed by `torch.log` and, per the
file-level convention, re-exponentiated: row `i` has a `1` at index `y_true[i]` and `0`
elsewhere (the exponentiated image of the 0 / −∞ log-encoding). -/
def oneHotRows (numClasses : ℕ) (yTrue : List ℕ) : List (List ℚ) :=
  yTrue.map fun y => (List.range numClasses).map fun c => if c = y then 1 else 0

/-- `TreeSection._update_leaf_distribution` (`src/proto/models.py` lines 624–661),
for one leaf.  In log space the source computes

    log_dist_update = torch.logsumexp(log_p_arrival + leaf_logits + y_true_logits - logits, dim=0)
    dist_update = torch.exp(log_dist_update)

whose exponentiated image is, per class `c`, the sum over the batch of
`pArrival[i] * yVec[c] * oneHot[i][c] / batchProbs[i][c]` (`yVec` is the exponentiated
`leaf.y_logits()`, `batchProbs` the exponentiated `logits` of shape
`(batch_size, num_classes)`).  Then

    leaf.dist_param_update_count += 1
    count_alpha = 1 / leaf.dist_param_update_count
    alpha = max(count_alpha, self.leaf_opt_ewma_alpha)
    leaf.dist_params.mul_(1.0 - alpha)
    leaf.dist_params.add_(dist_update)

Note the source adds `dist_update` itself, not `dist_update * alpha`. -/
def updateLeafDistribution (ewmaAlpha : ℚ) (state : LeafState) (yVec : List ℚ)
    (pArrival : List ℚ) (batchProbs : List (List ℚ)) (oneHot : List (List ℚ)) :
    LeafState :=
  let numClasses := (batchProbs.getD 0 []).length
  let distUpdate : List ℚ := (List.range numClasses).map fun c =>
    ((List.range batchProbs.length).map fun i =>
      pArrival.getD i 0 * yVec.getD c 0 * (oneHot.getD i []).getD c 0 /
        (batchProbs.getD i []).getD c 0).sum
  let newCount := state.updateCount + 1
  let countAlpha : ℚ := 1 / (newCount : ℚ)
  let alpha := max countAlpha ewmaAlpha
  { distParams := List.zipWith (fun d u => d * (1 - alpha) + u) state.distParams distUpdate,
    updateCount := newCount }

/-- `TreeSection.update_leaf_distributions` (`src/proto/models.py` lines 604–622):
builds the one-hot log-encoding of `y_true` and calls `_update_leaf_distribution` for
every leaf in `self.leaves`.  The Python loop mutates each (distinct) leaf object in
place; the embedding returns the new leaf-state assignment. -/
def updateLeafDistributions (depth : ℕ) (ewmaAlpha : ℚ) (states : TreePath → LeafState)
    (yVecOf : TreePath → List ℚ) (probsOf : TreePath → NodeProbabilities)
    (yTrue : List ℕ) (batchProbs : List (List ℚ)) : TreePath → LeafState :=
  let numClasses := (batchProbs.getD 0 []).length
  let oneHot := oneHotRows numClasses yTrue
  fun p =>
    if p ∈ leavesFrom depth [] then
      updateLeafDistribution ewmaAlpha (states p) (yVecOf p) (probsOf p).pArrival
        batchProbs oneHot
    else states p

/-! ## Rationalization (`ProtoTree.rationalize`, `LeafRationalization`)

Images are opaque to the routing core (the backbone is an external collaborator,
spec section 1), so they are a type parameter `Img`. -/

/-- Model of the external primitive argmin over a (flattened) distance map: index of
the first minimal value ("the location of minimal distance", spec section 4.5). -/
def argminIdx (l : List ℚ) : ℕ :=
  l.findIdx fun x => l.all fun y => decide (x ≤ y)

/-- Modelled from the spec: `img_similarity.py` is absent from the sources.  Spec
section 3: `ImageProtoSimilarity` is the "association between one internal node's
prototype, one input image, and its best-matching spatial patch (location +
similarity score)"; the similarity score is a fixed monotone transform of the
minimal distance, applied by the absent external code, so the evidence is carried
here as the minimal distance itself. -/
structure ImageProtoSimilarity (Img : Type) where
  internalNode : TreePath
  image : Img
  bestPatchIdx : ℕ
  minDistance : ℚ

/-- Modelled from the spec: `img_proto_similarity(leaf_ancestor, x_i, node_distances,
patches_i)` computes the best-matching patch — "location of minimal distance" — and
its score from the node's per-patch distance map for the image (spec section 4.5;
`img_similarity.py` is absent).  `nodeDistances` is the flattened distance map. -/
def imgProtoSimilarity {Img : Type} (node : TreePath) (img : Img)
    (nodeDistances : List ℚ) : ImageProtoSimilarity Img :=
  { internalNode := node, image := img,
    bestPatchIdx := argminIdx nodeDistances,
    minDistance := nodeDistances.getD (argminIdx nodeDistances) 0 }

/-- `LeafRationalization` of `src/proto/models.py` (lines 167–185). -/
structure LeafRationalization (Img : Type) where
  ancestorSimilarities : List (ImageProtoSimilarity Img)
  leaf : TreePath

/-- `LeafRationalization.proto_presents` (`src/proto/models.py` lines 172–185):

    internal_children = [s.internal_node for s in self.ancestor_similarities[1:]]
    ancestor_children = internal_children + [self.leaf]
    return [child.is_right_child for child in ancestor_children]
-/
def LeafRationalization.protoPresents {Img : Type} (r : LeafRationalization Img) :
    List Bool :=
  let internalChildren :=
    (r.ancestorSimilarities.drop 1).map fun s => s.internalNode
  let ancestorChildren := internalChildren ++ [r.leaf]
  ancestorChildren.map fun child => isRightChild child

/-- `ProtoTree.rationalize` (`src/proto/models.py` lines 364–412): zip the images with
the given leaves; for each pair, map over the leaf's ancestors, looking up each
ancestor's prototype index and its per-patch distance map for the image
(`dists_i[node_proto_idx, :, :]`), and collect the evidence into one
`LeafRationalization` per (image, leaf) pair.  `distsOf img protoIdx` is the
exponentiated image of the external `self.proto_base.distances(x)` slice for `img`
and prototype `protoIdx`, flattened. -/
def rationalize {Img : Type} (depth : ℕ) (distsOf : Img → ℕ → List ℚ)
    (xs : List Img) (predictingLeaves : List TreePath) :
    List (LeafRationalization Img) :=
  (xs.zip predictingLeaves).map fun xl =>
    { ancestorSimilarities := (ancestors xl.2).map fun leafAncestor =>
        imgProtoSimilarity leafAncestor xl.1
          (distsOf xl.1 (nodeToProtoIdx depth leafAncestor)),
      leaf := xl.2 }

/-- `LeafRationalization` of `src/prototree/models.py` (lines 19–22): holds the
ancestor similarities and the predicted label. -/
structure PrototreeLeafRationalization (Img : Type) where
  ancestorSimilarities : List (ImageProtoSimilarity Img)
  label : ℕ

/-- `ProtoTree.rationalize` of `src/prototree/models.py` (lines 316–344).  In that
file, `rationalization = LeafRationalization(...)` and
`rationalizations.append(rationalization)` sit INSIDE the `for leaf_ancestor in
leaf_ancestors` loop, so one rationalization is appended per ancestor, i.e.
`len(leaf_ancestors)` of them per (image, leaf) pair.  Each appended rationalization
holds a reference to the same `ancestor_similarities` list object, which by the end
of the inner loop contains all `len(leaf_ancestors)` entries; the embedding renders
the state of the returned objects at return time.  `labelOf leaf` models
`predicting_leaf.predicted_label()` (absent `node.py`; opaque here). -/
def prototreeRationalize {Img : Type} (depth : ℕ) (labelOf : TreePath → ℕ)
    (distsOf : Img → ℕ → List ℚ) (xs : List Img)
    (predictingLeaves : List TreePath) : List (PrototreeLeafRationalization Img) :=
  ((xs.zip predictingLeaves).map fun xl =>
    let leafAncestors := ancestors xl.2
    let ancestorSimilarities := leafAncestors.map fun leafAncestor =>
      imgProtoSimilarity leafAncestor xl.1
        (distsOf xl.1 (nodeToProtoIdx depth leafAncestor))
    leafAncestors.map fun _ =>
      ({ ancestorSimilarities := ancestorSimilarities,
         label := labelOf xl.2 } : PrototreeLeafRationalization Img)).flatten

/-! ## Helper lemmas: the propagation dictionary -/

/-- Helper (proof artifact, not source code): the `NodeProbabilities` that
`add_strict_descendants` records for the `b`-child of a node whose own entry
is `probs`. -/
def childProbs (pRightOf : TreePath → List ℚ) (probs : NodeProbabilities)
    (node : TreePath) (b : Bool) : NodeProbabilities :=
  { pArrival := if b then probs.pArrivalRight else probs.pArrivalLeft,
    pRight := pRightOf (node ++ [b]) }

/-- Helper: closed form of the entry the propagation records for `node ++ s`,
given that `node`'s entry is `probs`. -/
def descProbs (pRightOf : TreePath → List ℚ) (probs : NodeProbabilities)
    (node : TreePath) : TreePath → NodeProbabilities
  | [] => probs
  | b :: s => descProbs pRightOf (childProbs pRightOf probs node b) (node ++ [b]) s

theorem descProbs_snoc (f : TreePath → List ℚ) :
    ∀ (s : TreePath) (probs : NodeProbabilities) (node : TreePath) (b : Bool),
      descProbs f probs node (s ++ [b]) =
        childProbs f (descProbs f probs node s) (node ++ s) b := by
  intro s
  induction s with
  | nil => intro probs node b; simp [descProbs]
  | cons a s ih =>
      intro probs node b
      show descProbs f (childProbs f probs node a) (node ++ [a]) (s ++ [b]) = _
      rw [ih]
      simp [descProbs, List.append_assoc]

theorem lookupProbs_append_of_eq_some {l₁ l₂ : List (TreePath × NodeProbabilities)}
    {p : TreePath} {np : NodeProbabilities} (h : lookupProbs l₁ p = some np) :
    lookupProbs (l₁ ++ l₂) p = some np := by
  induction l₁ with
  | nil => simp [lookupProbs] at h
  | cons e l ih =>
      rw [List.cons_append]
      rw [lookupProbs] at h ⊢
      by_cases he : e.1 = p
      · simpa [he] using h
      · rw [if_neg he] at h ⊢
        exact ih h

theorem lookupProbs_append_of_eq_none {l₁ l₂ : List (TreePath × NodeProbabilities)}
    {p : TreePath} (h : lookupProbs l₁ p = none) :
    lookupProbs (l₁ ++ l₂) p = lookupProbs l₂ p := by
  induction l₁ with
  | nil => simp
  | cons e l ih =>
      rw [List.cons_append]
      rw [lookupProbs] at h ⊢
      by_cases he : e.1 = p
      · simp [he] at h
      · rw [if_neg he] at h ⊢
        exact ih h

theorem lookupProbs_eq_none_of_forall {l : List (TreePath × NodeProbabilities)}
    {p : TreePath} (h : ∀ e ∈ l, e.1 ≠ p) : lookupProbs l p = none := by
  induction l with
  | nil => rfl
  | cons e l ih =>
      rw [lookupProbs, if_neg (h e (List.mem_cons_self e l))]
      exact ih fun e' he' => h e' (List.mem_cons_of_mem e he')

/-- Every key recorded by `add_strict_descendants` strictly extends the node it was
called on. -/
theorem addStrictDescendants_key_ext (depth : ℕ) (f : TreePath → List ℚ) :
    ∀ (fuel : ℕ) (node : TreePath) (probs : NodeProbabilities)
      (e : TreePath × NodeProbabilities),
      depth - node.length ≤ fuel → e ∈ addStrictDescendants depth f node probs →
      ∃ t, t ≠ [] ∧ e.1 = node ++ t := by
  intro fuel
  induction fuel with
  | zero =>
      intro node probs e hle hmem
      have h : depth ≤ node.length := by omega
      rw [addStrictDescendants, if_pos h] at hmem
      simp at hmem
  | succ n ih =>
      intro node probs e hle hmem
      by_cases h : depth ≤ node.length
      · rw [addStrictDescendants, if_pos h] at hmem
        simp at hmem
      · rw [addStrictDescendants, if_neg h] at hmem
        have hfuel : ∀ b : Bool, depth - (node ++ [b]).length ≤ n := by
          intro b; simp; omega
        rcases List.mem_cons.mp hmem with he | hmem
        · exact ⟨[false], by simp, by rw [he]⟩
        rcases List.mem_cons.mp hmem with he | hmem
        · exact ⟨[true], by simp, by rw [he]⟩
        rcases List.mem_append.mp hmem with hm | hm
        · obtain ⟨t, ht, he⟩ := ih (node ++ [false]) _ e (hfuel false) hm
          exact ⟨false :: t, by simp, by rw [he]; simp⟩
        · obtain ⟨t, ht, he⟩ := ih (node ++ [true]) _ e (hfuel true) hm
          exact ⟨true :: t, by simp, by rw [he]; simp⟩

/-- Looking up a strict descendant `node ++ s` in the entries recorded by
`add_strict_descendants` from `node` yields the closed-form `descProbs`. -/
theorem lookupProbs_addStrictDescendants (depth : ℕ) (f : TreePath → List ℚ) :
    ∀ (s node : TreePath) (probs : NodeProbabilities), s ≠ [] →
      (node ++ s).length ≤ depth →
      lookupProbs (addStrictDescendants depth f node probs) (node ++ s) =
        some (descProbs f probs node s) := by
  intro s
  induction s with
  | nil => intro node probs hne; exact absurd rfl hne
  | cons b s ih =>
      intro node probs _ hlen
      have hnode : node.length < depth := by
        simp [List.length_append] at hlen; omega
      rw [addStrictDescendants, if_neg (not_le.mpr hnode)]
      cases s with
      | nil =>
          -- s = [b]: the child entry itself is at the front of the list
          cases b with
          | false =>
              rw [lookupProbs, if_pos rfl]
              rfl
          | true =>
              rw [lookupProbs, if_neg (by simp)]
              rw [lookupProbs, if_pos rfl]
              rfl
      | cons c s' =>
          -- s = b :: c :: s': the key lies in one of the recursive sublists
          have hkey₁ : node ++ [false] ≠ node ++ b :: c :: s' := by
            intro heq
            have := List.append_cancel_left heq
            simp at this
          have hkey₂ : node ++ [true] ≠ node ++ b :: c :: s' := by
            intro heq
            have := List.append_cancel_left heq
            simp at this
          rw [lookupProbs, if_neg hkey₁, lookupProbs, if_neg hkey₂]
          have hstep : ∀ bb : Bool, node ++ bb :: c :: s' = (node ++ [bb]) ++ c :: s' := by
            intro bb; simp
          have hlen' : ∀ bb : Bool, ((node ++ [bb]) ++ c :: s').length ≤ depth := by
            intro bb
            simp only [List.length_append, List.length_cons] at hlen ⊢
            simp at hlen ⊢
            omega
          cases b with
          | false =>
              rw [hstep false]
              rw [lookupProbs_append_of_eq_some
                (ih (node ++ [false]) _ (by simp) (hlen' false))]
              rfl
          | true =>
              rw [hstep true]
              have hnone :
                  lookupProbs (addStrictDescendants depth f (node ++ [false])
                    { pArrival := probs.pArrivalLeft, pRight := f (node ++ [false]) })
                    ((node ++ [true]) ++ c :: s') = none := by
                apply lookupProbs_eq_none_of_forall
                intro e he
                obtain ⟨t, _, het⟩ :=
                  addStrictDescendants_key_ext depth f (depth - (node ++ [false]).length)
                    (node ++ [false]) _ e le_rfl he
                rw [het]
                intro hcontra
                rw [List.append_assoc, List.append_assoc] at hcontra
                have := List.append_cancel_left hcontra
                simp at this
              rw [lookupProbs_append_of_eq_none hnone]
              rw [ih (node ++ [true]) _ (by simp) (hlen' true)]
              rfl

/-- The propagation dictionary, looked up at any tree node, yields the closed-form
entry `descProbs f (rootProbs f) [] p`. -/
theorem lookupProbs_nodeToProbs (depth : ℕ) (f : TreePath → List ℚ) (p : TreePath)
    (hp : p.length ≤ depth) :
    lookupProbs (nodeToProbsFromPRight depth f) p =
      some (descProbs f (rootProbs f) [] p) := by
  cases p with
  | nil => rfl
  | cons b s =>
      rw [nodeToProbsFromPRight, lookupProbs, if_neg (by simp)]
      have := lookupProbs_addStrictDescendants depth f (b :: s) [] (rootProbs f)
        (by simp) (by simpa using hp)
      simpa using this

/-! ## Helper lemmas: tensor shapes, leaves, greedy walk, argmax -/

/-- When every `pRight` column has batch length `n`, the propagation preserves the
batch length of both tensors of every recorded entry. -/
theorem descProbs_lengths (f : TreePath → List ℚ) (n : ℕ)
    (hf : ∀ p, (f p).length = n) :
    ∀ (s node : TreePath) (probs : NodeProbabilities),
      probs.pArrival.length = n → probs.pRight.length = n →
      (descProbs f probs node s).pArrival.length = n ∧
        (descProbs f probs node s).pRight.length = n := by
  intro s
  induction s with
  | nil => intro node probs h₁ h₂; exact ⟨h₁, h₂⟩
  | cons b s ih =>
      intro node probs h₁ h₂
      refine ih (node ++ [b]) (childProbs f probs node b) ?_ (hf _)
      cases b <;>
        simp [childProbs, NodeProbabilities.pArrivalLeft, NodeProbabilities.pArrivalRight,
          NodeProbabilities.pLeft, h₁, h₂]

theorem rootProbs_lengths (f : TreePath → List ℚ) (n : ℕ) (hf : ∀ p, (f p).length = n) :
    (rootProbs f).pArrival.length = n ∧ (rootProbs f).pRight.length = n := by
  simp [rootProbs, hf]

/-- Characterization of the leaf list: under a node of the tree, the leaves of its
subtree are exactly the depth-`depth` extensions of its path, and `leavesFrom` presents
them left-to-right. -/
theorem mem_leavesFrom (depth : ℕ) :
    ∀ (fuel : ℕ) (node q : TreePath), depth - node.length ≤ fuel →
      node.length ≤ depth →
      (q ∈ leavesFrom depth node ↔ (∃ s, q = node ++ s) ∧ q.length = depth) := by
  intro fuel
  induction fuel with
  | zero =>
      intro node q hfuel hnode
      have h : depth ≤ node.length := by omega
      rw [leavesFrom, if_pos h]
      have hd : node.length = depth := le_antisymm hnode h
      constructor
      · intro hq
        simp at hq
        exact ⟨⟨[], by simp [hq]⟩, by rw [hq, hd]⟩
      · rintro ⟨⟨s, rfl⟩, hlen⟩
        simp [List.length_append] at hlen
        have : s = [] := by
          cases s with
          | nil => rfl
          | cons a t => simp at hlen; omega
        simp [this]
  | succ m ih =>
      intro node q hfuel hnode
      by_cases h : depth ≤ node.length
      · exact ih node q (by omega) hnode
      · rw [leavesFrom, if_neg h]
        have hfuel' : ∀ b : Bool, depth - (node ++ [b]).length ≤ m := by
          intro b; simp; omega
        have hnode' : ∀ b : Bool, (node ++ [b]).length ≤ depth := by
          intro b; simp; omega
        rw [List.mem_append, ih _ q (hfuel' false) (hnode' false),
          ih _ q (hfuel' true) (hnode' true)]
        constructor
        · rintro (⟨⟨s, rfl⟩, hlen⟩ | ⟨⟨s, rfl⟩, hlen⟩)
          · exact ⟨⟨false :: s, by simp⟩, hlen⟩
          · exact ⟨⟨true :: s, by simp⟩, hlen⟩
        · rintro ⟨⟨s, rfl⟩, hlen⟩
          cases s with
          | nil => simp [List.length_append] at hlen; omega
          | cons b t =>
              cases b with
              | false => exact Or.inl ⟨⟨t, by simp⟩, hlen⟩
              | true => exact Or.inr ⟨⟨t, by simp⟩, hlen⟩

/-- The leaves of the whole tree are exactly the paths of length `depth`. -/
theorem mem_leavesFrom_root (depth : ℕ) (q : TreePath) :
    q ∈ leavesFrom depth [] ↔ q.length = depth := by
  rw [mem_leavesFrom depth (depth - 0) [] q le_rfl (by simp)]
  simp

theorem leavesFrom_root_ne_nil (depth : ℕ) : leavesFrom depth [] ≠ [] := by
  intro h
  have := (mem_leavesFrom_root depth (List.replicate depth false)).mpr (by simp)
  rw [h] at this
  exact absurd this (List.not_mem_nil _)

/-- The greedy walk, started at a node of the tree, stops at the first leaf reached:
its result is a path of length exactly `depth`. -/
theorem greedyGo_length (depth : ℕ) (probsOf : TreePath → NodeProbabilities)
    (i : ℕ) :
    ∀ (fuel : ℕ) (cur : TreePath), depth - cur.length ≤ fuel → cur.length ≤ depth →
      (greedyGo depth probsOf i cur).length = depth := by
  intro fuel
  induction fuel with
  | zero =>
      intro cur hfuel hcur
      have h : depth ≤ cur.length := by omega
      rw [greedyGo, if_pos h]
      omega
  | succ m ih =>
      intro cur hfuel hcur
      by_cases h : depth ≤ cur.length
      · rw [greedyGo, if_pos h]; omega
      · rw [greedyGo, if_neg h]
        by_cases hc : 1 / 2 < (probsOf cur).pLeft.getD i 0
        · rw [if_pos hc]
          exact ih (cur ++ [false]) (by simp; omega) (by simp; omega)
        · rw [if_neg hc]
          exact ih (cur ++ [true]) (by simp; omega) (by simp; omega)

theorem exists_max_mem (l : List ℚ) (h : l ≠ []) : ∃ x ∈ l, ∀ y ∈ l, y ≤ x := by
  induction l with
  | nil => exact absurd rfl h
  | cons a l ih =>
      cases l with
      | nil => exact ⟨a, by simp⟩
      | cons b t =>
          obtain ⟨x, hx, hmax⟩ := ih (by simp)
          by_cases hax : a ≤ x
          · exact ⟨x, List.mem_cons_of_mem a hx, by
              intro y hy
              rcases List.mem_cons.mp hy with rfl | hy
              · exact hax
              · exact hmax y hy⟩
          · exact ⟨a, List.mem_cons_self a _, by
              intro y hy
              rcases List.mem_cons.mp hy with rfl | hy
              · exact le_rfl
              · exact (hmax y hy).trans (le_of_not_le hax)⟩

theorem argmaxIdx_lt_length {l : List ℚ} (h : l ≠ []) : argmaxIdx l < l.length := by
  obtain ⟨x, hx, hmax⟩ := exists_max_mem l h
  exact List.findIdx_lt_length_of_exists ⟨x, hx, by
    simp only [List.all_eq_true, decide_eq_true_eq]
    exact hmax⟩

theorem argmaxIdx_is_max {l : List ℚ} (h : l ≠ []) :
    ∀ y ∈ l, y ≤ l.getD (argmaxIdx l) 0 := by
  have hlt := argmaxIdx_lt_length h
  have := List.findIdx_getElem (p := fun x => l.all fun y => decide (y ≤ x))
    (w := hlt)
  simp only [List.all_eq_true, decide_eq_true_eq] at this
  intro y hy
  rw [List.getD_eq_getElem l 0 hlt]
  exact this y hy

theorem argmaxIdx_first {l : List ℚ} (h : l ≠ []) :
    ∀ j < argmaxIdx l, l.getD j 0 < l.getD (argmaxIdx l) 0 := by
  intro j hj
  have hjlen : j < l.length := hj.trans (argmaxIdx_lt_length h)
  have hnot := List.not_of_lt_findIdx (p := fun x => l.all fun y => decide (y ≤ x)) hj
  rw [List.all_eq_false] at hnot
  obtain ⟨y, hy, hylt⟩ := hnot
  simp only [decide_eq_true_eq] at hylt
  have h₁ : l.getD j 0 < y := by
    rw [List.getD_eq_getElem l 0 hjlen]
    exact lt_of_not_le hylt
  exact h₁.trans_le (argmaxIdx_is_max h y hy)

/-! ## Claim C5: strategy / mode error handling of `forward` -/

/-- C5: `ProtoTree.forward` raises a `ValueError` (it does not fall back to a default)
for every strategy name outside the closed enum
{"distributed", "sample_max", "greedy"}, and for every call requesting "sample_max" or
"greedy" while the model is in training mode; "distributed" is accepted in both
training and inference mode. -/
theorem forward_strategy_mode_errors
    (training : Bool) (depth numClasses : ℕ) (yVecOf pRightOf : TreePath → List ℚ)
    (strategy : String) :
    (strategy ≠ "distributed" → strategy ≠ "sample_max" → strategy ≠ "greedy" →
      ∃ e, forward training depth numClasses yVecOf pRightOf strategy = .error e) ∧
    (training = true → (strategy = "sample_max" ∨ strategy = "greedy") →
      ∃ e, forward training depth numClasses yVecOf pRightOf strategy = .error e) ∧
    (∃ out, forward training depth numClasses yVecOf pRightOf "distributed" = .ok out) := by
  refine ⟨?_, ?_, ?_⟩
  · intro h₁ h₂ h₃
    have h₄ : ¬(training = false ∧ (strategy = "sample_max" ∨ strategy = "greedy")) := by
      rintro ⟨-, h | h⟩; exacts [h₂ h, h₃ h]
    simp only [forward, if_neg h₁, if_neg h₄]
    exact ⟨_, rfl⟩
  · intro htr hs
    subst htr
    have h₁ : strategy ≠ "distributed" := by
      rcases hs with rfl | rfl <;> decide
    have h₄ : ¬(true = false ∧ (strategy = "sample_max" ∨ strategy = "greedy")) := by
      rintro ⟨h, -⟩; cases h
    simp only [forward, if_neg h₁, if_neg h₄]
    exact ⟨_, rfl⟩
  · simp only [forward, if_pos rfl]
    exact ⟨_, rfl⟩

/-- C5 witness: concrete instances of all three behaviors. -/
theorem forward_strategy_mode_errors_witness :
    (∃ e, forward false 1 1 (fun _ => [1]) (fun _ => [1/2]) "softmax" = .error e) ∧
    (∃ e, forward true 1 1 (fun _ => [1]) (fun _ => [1/2]) "greedy" = .error e) ∧
    (∃ out, forward true 1 1 (fun _ => [1]) (fun _ => [1/2]) "distributed" = .ok out) :=
  ⟨(forward_strategy_mode_errors false 1 1 (fun _ => [1]) (fun _ => [1/2]) "softmax").1
      (by decide) (by decide) (by decide),
   (forward_strategy_mode_errors true 1 1 (fun _ => [1]) (fun _ => [1/2]) "greedy").2.1
      rfl (Or.inr rfl),
   (forward_strategy_mode_errors true 1 1 (fun _ => [1]) (fun _ => [1/2]) "x").2.2⟩

/-! ## Claim C10: the duplicated leaf-selection code is extensionally equal -/

/-- The two greedy walks (static method in `src/proto/models.py`, free function in
`src/prototree/models.py`) agree pointwise. -/
theorem prototreeGreedyGo_eq_greedyGo (depth : ℕ)
    (probsOf : TreePath → NodeProbabilities) (i : ℕ) :
    ∀ (fuel : ℕ) (cur : TreePath), depth - cur.length ≤ fuel →
      prototreeGreedyGo depth probsOf i cur = greedyGo depth probsOf i cur := by
  intro fuel
  induction fuel with
  | zero =>
      intro cur hfuel
      have h : depth ≤ cur.length := by omega
      rw [prototreeGreedyGo, greedyGo, if_pos h, if_pos h]
  | succ m ih =>
      intro cur hfuel
      by_cases h : depth ≤ cur.length
      · rw [prototreeGreedyGo, greedyGo, if_pos h, if_pos h]
      · rw [prototreeGreedyGo, greedyGo, if_neg h, if_neg h]
        by_cases hc : 1 / 2 < (probsOf cur).pLeft.getD i 0
        · rw [if_pos hc, if_pos hc]
          exact ih (cur ++ [false]) (by simp; omega)
        · rw [if_neg hc, if_neg hc]
          exact ih (cur ++ [true]) (by simp; omega)

/-- C10: for every tree (root), node-probability mapping and strategy name, the free
function `get_predicting_leaves` of `src/prototree/models.py` and the static method
`TreeSection.get_predicting_leaves` of `src/proto/models.py` (with their greedy and
max-arrival helpers) return the same list of leaves and raise on the same inputs. -/
theorem getPredictingLeaves_eq_prototree (depth : ℕ)
    (probsOf : TreePath → NodeProbabilities) (strategy : String) :
    getPredictingLeaves depth probsOf strategy =
      prototreeGetPredictingLeaves depth probsOf strategy := by
  rw [getPredictingLeaves, prototreeGetPredictingLeaves]
  by_cases h₁ : strategy = "sample_max"
  · rw [if_pos h₁, if_pos h₁]
    rfl
  · rw [if_neg h₁, if_neg h₁]
    by_cases h₂ : strategy = "greedy"
    · rw [if_pos h₂, if_pos h₂]
      rw [getPredictingLeavesGreedily, prototreeGetPredictingLeavesGreedily]
      congr 1
      exact List.map_congr_left fun i _ =>
        (prototreeGreedyGo_eq_greedyGo depth probsOf i (depth - 0) [] le_rfl).symm
    · rw [if_neg h₂, if_neg h₂]

/-! ## Claim C3: the greedy walk -/

/-- The walk exactly as claim C3 states it: at each internal node go to the right
child if `log_p_right > -log 2` (i.e. `p_right > 0.5`) for that sample, and to the
left child otherwise; the walk ends at the first leaf reached.  This definition
follows the claim's words, for comparison with the source's `greedyGo`. -/
def claimedGreedyGo (depth : ℕ) (probsOf : TreePath → NodeProbabilities)
    (sampleIdx : ℕ) (cur : TreePath) : TreePath :=
  if depth ≤ cur.length then cur
  else if 1 / 2 < (probsOf cur).pRight.getD sampleIdx 0 then
    claimedGreedyGo depth probsOf sampleIdx (cur ++ [true])
  else
    claimedGreedyGo depth probsOf sampleIdx (cur ++ [false])
termination_by depth - cur.length
decreasing_by
  all_goals simp only [List.length_append, List.length_cons, List.length_nil]; omega

/-- Claim C3 amended at the decision boundary: go right if `log_p_right ≥ -log 2`
(i.e. `p_right ≥ 0.5`), and left otherwise — the source tests `log_p_left > -log 2`
for going left, which sends the `p_right = 0.5` boundary to the right child. -/
def amendedGreedyGo (depth : ℕ) (probsOf : TreePath → NodeProbabilities)
    (sampleIdx : ℕ) (cur : TreePath) : TreePath :=
  if depth ≤ cur.length then cur
  else if 1 / 2 ≤ (probsOf cur).pRight.getD sampleIdx 0 then
    amendedGreedyGo depth probsOf sampleIdx (cur ++ [true])
  else
    amendedGreedyGo depth probsOf sampleIdx (cur ++ [false])
termination_by depth - cur.length
decreasing_by
  all_goals simp only [List.length_append, List.length_cons, List.length_nil]; omega

/-- A one-sample probability mapping placing every node exactly on the routing
boundary `p_right = 0.5` (`log_p_right = -log 2`). -/
def boundaryProbs : TreePath → NodeProbabilities :=
  fun _ => { pArrival := [1], pRight := [1 / 2] }

/-- C3 counterexample: at `p_right = 0.5` the source's greedy walk
(`log_p_left > -log 2` sends it left, so the boundary goes right) disagrees with the
claim's walk (right only when `log_p_right > -log 2`, so the boundary goes left):
on a depth-1 tree with `p_right = 1/2`, the code selects the right leaf while the
claim's walk selects the left leaf. -/
theorem greedy_claim_counterexample :
    getPredictingLeavesGreedily 1 boundaryProbs = [[true]] ∧
    (List.range (boundaryProbs []).batchSize).map
        (fun i => claimedGreedyGo 1 boundaryProbs i []) = [[false]] ∧
    getPredictingLeavesGreedily 1 boundaryProbs ≠
      (List.range (boundaryProbs []).batchSize).map
        (fun i => claimedGreedyGo 1 boundaryProbs i []) := by
  have h₁ : greedyGo 1 boundaryProbs 0 [] = [true] := by
    rw [greedyGo, if_neg (by decide),
      if_neg (by norm_num [boundaryProbs, NodeProbabilities.pLeft]),
      greedyGo, if_pos (by decide)]
    rfl
  have h₂ : claimedGreedyGo 1 boundaryProbs 0 [] = [false] := by
    rw [claimedGreedyGo, if_neg (by decide),
      if_neg (by norm_num [boundaryProbs]),
      claimedGreedyGo, if_pos (by decide)]
    rfl
  have hbs : (boundaryProbs []).batchSize = 1 := rfl
  have hr : List.range 1 = [0] := rfl
  refine ⟨?_, ?_, ?_⟩
  · rw [getPredictingLeavesGreedily, hbs, hr, List.map_cons, List.map_nil, h₁]
  · rw [hbs, hr, List.map_cons, List.map_nil, h₂]
  · rw [getPredictingLeavesGreedily, hbs, hr, List.map_cons, List.map_nil,
      h₁, List.map_cons, List.map_nil, h₂]
    decide

/-- The source's walk agrees pointwise with the amended decision rule whenever the
sample index is within the node's batch (as it always is in `forward`, where every
node's tensors share the batch dimension). -/
theorem greedyGo_eq_amended (depth : ℕ) (probsOf : TreePath → NodeProbabilities)
    (i : ℕ) :
    ∀ (fuel : ℕ) (cur : TreePath), depth - cur.length ≤ fuel →
      i < (probsOf cur).pRight.length →
      (∀ p, i < (probsOf p).pRight.length) →
      greedyGo depth probsOf i cur = amendedGreedyGo depth probsOf i cur := by
  intro fuel
  induction fuel with
  | zero =>
      intro cur hfuel _ _
      have h : depth ≤ cur.length := by omega
      rw [greedyGo, amendedGreedyGo, if_pos h, if_pos h]
  | succ m ih =>
      intro cur hfuel hi hall
      by_cases h : depth ≤ cur.length
      · rw [greedyGo, amendedGreedyGo, if_pos h, if_pos h]
      · have hleft : (probsOf cur).pLeft.getD i 0 =
            1 - (probsOf cur).pRight.getD i 0 := by
          rw [NodeProbabilities.pLeft,
            List.getD_eq_getElem _ _ (by simpa using hi),
            List.getElem_map, List.getD_eq_getElem _ _ hi]
        rw [greedyGo, amendedGreedyGo, if_neg h, if_neg h]
        by_cases hc : 1 / 2 ≤ (probsOf cur).pRight.getD i 0
        · rw [if_neg (by rw [hleft]; intro hcontra; linarith), if_pos hc]
          exact ih (cur ++ [true]) (by simp; omega) (hall _) hall
        · rw [if_pos (by rw [hleft]; push_neg at hc; linarith), if_neg hc]
          exact ih (cur ++ [false]) (by simp; omega) (hall _) hall

/-- C3 amended: under the greedy strategy, the walk for each sample starts at the
root and, at each internal node, goes to the right child if `log_p_right ≥ -log 2`
(i.e. `p_right ≥ 0.5`, equivalently `log_p_left ≤ -log 2`, the test the source
performs) and to the left child otherwise, ignoring accumulated arrival probability;
the walk ends at the first leaf reached (a path of length `depth`). -/
theorem getPredictingLeavesGreedily_amended (depth : ℕ)
    (probsOf : TreePath → NodeProbabilities)
    (hbatch : ∀ p, (probsOf p).pRight.length = (probsOf []).batchSize) :
    getPredictingLeavesGreedily depth probsOf =
      (List.range (probsOf []).batchSize).map
        (fun i => amendedGreedyGo depth probsOf i []) ∧
    ∀ l ∈ getPredictingLeavesGreedily depth probsOf, l.length = depth := by
  constructor
  · rw [getPredictingLeavesGreedily]
    refine List.map_congr_left fun i hi => ?_
    have hi' : i < (probsOf []).batchSize := List.mem_range.mp hi
    exact greedyGo_eq_amended depth probsOf i (depth - 0) [] le_rfl
      (by rw [hbatch]; exact hi') (fun p => by rw [hbatch]; exact hi')
  · intro l hl
    rw [getPredictingLeavesGreedily] at hl
    obtain ⟨i, -, rfl⟩ := List.mem_map.mp hl
    exact greedyGo_length depth probsOf i (depth - 0) [] le_rfl (by simp)

/-- C3 witness: the amended walk equality instantiated on the boundary input. -/
theorem getPredictingLeavesGreedily_amended_witness :
    getPredictingLeavesGreedily 1 boundaryProbs =
      (List.range (boundaryProbs []).batchSize).map
        (fun i => amendedGreedyGo 1 boundaryProbs i []) ∧
    ∀ l ∈ getPredictingLeavesGreedily 1 boundaryProbs, l.length = 1 :=
  getPredictingLeavesGreedily_amended 1 boundaryProbs (fun _ => rfl)

/-! ## Claim C7: sample_max picks the first globally-maximal-arrival leaf -/

/-- C7: under the sample_max strategy, for every sample the selected leaf attains the
globally maximum `log_p_arrival` among all leaves, and when several leaves tie for the
maximum, the first occurrence in the leaf enumeration order wins (all earlier leaves
have strictly smaller arrival).  Arrival probabilities are compared in exponentiated
form, which preserves the (arg)max. -/
theorem getMaxPArrivalLeaves_argmax (leaves : List TreePath)
    (probsOf : TreePath → NodeProbabilities) (hne : leaves ≠ []) (i : ℕ)
    (hi : i < arrivalBatchSize leaves probsOf) :
    ∃ j, j < leaves.length ∧
      (getMaxPArrivalLeaves leaves probsOf).getD i [] = leaves.getD j [] ∧
      (∀ k < leaves.length,
        (probsOf (leaves.getD k [])).pArrival.getD i 0 ≤
          (probsOf (leaves.getD j [])).pArrival.getD i 0) ∧
      (∀ k < j,
        (probsOf (leaves.getD k [])).pArrival.getD i 0 <
          (probsOf (leaves.getD j [])).pArrival.getD i 0) := by
  set row : List ℚ := leaves.map fun leaf => (probsOf leaf).pArrival.getD i 0 with hrow
  have hrowne : row ≠ [] := by
    rw [hrow]
    simpa using hne
  have hrowlen : row.length = leaves.length := by rw [hrow, List.length_map]
  have hj : argmaxIdx row < leaves.length := hrowlen ▸ argmaxIdx_lt_length hrowne
  have hget : ∀ k, (hk : k < leaves.length) →
      row.getD k 0 = (probsOf (leaves.getD k [])).pArrival.getD i 0 := by
    intro k hk
    rw [hrow, List.getD_eq_getElem _ _ (by simpa using hk), List.getElem_map,
      List.getD_eq_getElem _ _ hk]
  refine ⟨argmaxIdx row, hj, ?_, ?_, ?_⟩
  · rw [getMaxPArrivalLeaves,
      List.getD_eq_getElem _ _ (by simpa using hi),
      List.getElem_map, List.getElem_range]
  · intro k hk
    rw [← hget k hk, ← hget (argmaxIdx row) hj]
    have : row.getD k 0 ∈ row := by
      rw [List.getD_eq_getElem _ _ (hrowlen ▸ hk)]
      exact List.getElem_mem _
    exact argmaxIdx_is_max hrowne _ this
  · intro k hk
    rw [← hget k (hk.trans hj), ← hget (argmaxIdx row) hj]
    exact argmaxIdx_first hrowne k hk

/-- C7 witness: a two-leaf tie, where the first leaf in enumeration order is picked. -/
theorem getMaxPArrivalLeaves_argmax_witness :
    ∃ j, j < ([[false], [true]] : List TreePath).length ∧
      (getMaxPArrivalLeaves [[false], [true]]
        (fun _ => { pArrival := [1/2], pRight := [1/2] })).getD 0 [] =
        ([[false], [true]] : List TreePath).getD j [] ∧
      (∀ k < ([[false], [true]] : List TreePath).length,
        ((fun (_ : TreePath) =>
            ({ pArrival := [1/2], pRight := [1/2] } : NodeProbabilities))
          (([[false], [true]] : List TreePath).getD k [])).pArrival.getD 0 0 ≤
        ((fun (_ : TreePath) =>
            ({ pArrival := [1/2], pRight := [1/2] } : NodeProbabilities))
          (([[false], [true]] : List TreePath).getD j [])).pArrival.getD 0 0) ∧
      (∀ k < j,
        ((fun (_ : TreePath) =>
            ({ pArrival := [1/2], pRight := [1/2] } : NodeProbabilities))
          (([[false], [true]] : List TreePath).getD k [])).pArrival.getD 0 0 <
        ((fun (_ : TreePath) =>
            ({ pArrival := [1/2], pRight := [1/2] } : NodeProbabilities))
          (([[false], [true]] : List TreePath).getD j [])).pArrival.getD 0 0) :=
  getMaxPArrivalLeaves_argmax [[false], [true]]
    (fun _ => { pArrival := [1/2], pRight := [1/2] }) (by decide) 0 (by decide)

/-! ## Claim C4: probability propagation -/

/-- C4: the propagation of `_node_to_probs_from_p_right` sets the root's
`log_p_arrival` to `0` (probability `1`) for every sample; for every internal node,
the right child's arrival is the node's arrival combined with the node's `p_right`
(`log_p_arrival + log_p_right`; exponentiated, the element-wise product), and the left
child's arrival is the node's arrival combined with `1 - p_right`
(`log(1 - exp(log_p_right))`); and the returned mapping contains an entry for every
node of the tree. -/
theorem nodeToProbsFromPRight_propagation (depth : ℕ) (f : TreePath → List ℚ) :
    (∃ np, lookupProbs (nodeToProbsFromPRight depth f) [] = some np ∧
      np.pArrival = List.replicate (f []).length 1 ∧ np.pRight = f []) ∧
    (∀ p, p.length < depth →
      ∃ np npl npr,
        lookupProbs (nodeToProbsFromPRight depth f) p = some np ∧
        lookupProbs (nodeToProbsFromPRight depth f) (p ++ [false]) = some npl ∧
        lookupProbs (nodeToProbsFromPRight depth f) (p ++ [true]) = some npr ∧
        npl.pArrival = List.zipWith (· * ·) np.pArrival (np.pRight.map fun r => 1 - r) ∧
        npr.pArrival = List.zipWith (· * ·) np.pArrival np.pRight ∧
        npl.pRight = f (p ++ [false]) ∧ npr.pRight = f (p ++ [true])) ∧
    (∀ p, p.length ≤ depth →
      (lookupProbs (nodeToProbsFromPRight depth f) p).isSome = true) := by
  refine ⟨⟨rootProbs f, rfl, rfl, rfl⟩, ?_, ?_⟩
  · intro p hp
    have hroot₁ : (rootProbs f).pArrival.length = (f []).length := by
      simp [rootProbs]
    refine ⟨descProbs f (rootProbs f) [] p,
      descProbs f (rootProbs f) [] (p ++ [false]),
      descProbs f (rootProbs f) [] (p ++ [true]),
      lookupProbs_nodeToProbs depth f p hp.le,
      lookupProbs_nodeToProbs depth f (p ++ [false]) (by simp; omega),
      lookupProbs_nodeToProbs depth f (p ++ [true]) (by simp; omega), ?_, ?_, ?_, ?_⟩
    · rw [descProbs_snoc]
      simp [childProbs, NodeProbabilities.pArrivalLeft, NodeProbabilities.pLeft]
    · rw [descProbs_snoc]
      simp [childProbs, NodeProbabilities.pArrivalRight]
    · rw [descProbs_snoc]
      simp [childProbs]
    · rw [descProbs_snoc]
      simp [childProbs]
  · intro p hp
    rw [lookupProbs_nodeToProbs depth f p hp]
    rfl

/-- C4 witness: the propagation on a depth-1 tree with one sample. -/
theorem nodeToProbsFromPRight_propagation_witness :
    (∃ np npl npr,
      lookupProbs (nodeToProbsFromPRight 1 (fun _ => [1/2])) [] = some np ∧
      lookupProbs (nodeToProbsFromPRight 1 (fun _ => [1/2])) [false] = some npl ∧
      lookupProbs (nodeToProbsFromPRight 1 (fun _ => [1/2])) [true] = some npr ∧
      npl.pArrival = List.zipWith (· * ·) np.pArrival (np.pRight.map fun r => 1 - r) ∧
      npr.pArrival = List.zipWith (· * ·) np.pArrival np.pRight ∧
      npl.pRight = (fun (_ : TreePath) => [(1 : ℚ)/2]) [false] ∧
      npr.pRight = (fun (_ : TreePath) => [(1 : ℚ)/2]) [true]) ∧
    (lookupProbs (nodeToProbsFromPRight 1 (fun _ => [1/2])) [true]).isSome = true := by
  constructor
  · have h := (nodeToProbsFromPRight_propagation 1 (fun _ => [1/2])).2.1 [] (by decide)
    obtain ⟨np, npl, npr, h₁, h₂, h₃, h₄, h₅, h₆, h₇⟩ := h
    exact ⟨np, npl, npr, h₁, by simpa using h₂, by simpa using h₃, h₄, h₅, h₆, h₇⟩
  · exact (nodeToProbsFromPRight_propagation 1 (fun _ => [1/2])).2.2 [true] (by decide)

/-! ## Claim C6: forward's output contract per strategy -/

/-- The `pArrival` tensor of any tree node's propagation entry has the batch length of
the `p_right` columns. -/
theorem lookup_pArrival_length (depth n : ℕ) (f : TreePath → List ℚ)
    (hf : ∀ p, (f p).length = n) (p : TreePath) (hp : p.length ≤ depth) :
    ((lookupProbs (nodeToProbsFromPRight depth f) p).getD ⟨[], []⟩).pArrival.length = n := by
  rw [lookupProbs_nodeToProbs depth f p hp, Option.getD_some]
  exact (descProbs_lengths f n hf p [] (rootProbs f)
    (rootProbs_lengths f n hf).1 (rootProbs_lengths f n hf).2).1

theorem getPredictingLeavesGreedily_spec (depth n : ℕ)
    (probsOf : TreePath → NodeProbabilities) (hb : (probsOf []).batchSize = n) :
    (getPredictingLeavesGreedily depth probsOf).length = n ∧
    ∀ l ∈ getPredictingLeavesGreedily depth probsOf, l ∈ leavesFrom depth [] := by
  constructor
  · rw [getPredictingLeavesGreedily, List.length_map, List.length_range, hb]
  · intro l hl
    rw [getPredictingLeavesGreedily] at hl
    obtain ⟨i, -, rfl⟩ := List.mem_map.mp hl
    rw [mem_leavesFrom_root]
    exact greedyGo_length depth probsOf i (depth - 0) [] le_rfl (by simp)

theorem getMaxPArrivalLeaves_mem (leaves : List TreePath)
    (probsOf : TreePath → NodeProbabilities) (hne : leaves ≠ []) :
    ∀ l ∈ getMaxPArrivalLeaves leaves probsOf, l ∈ leaves := by
  intro l hl
  rw [getMaxPArrivalLeaves] at hl
  obtain ⟨i, -, rfl⟩ := List.mem_map.mp hl
  have hrowne : (leaves.map fun leaf => (probsOf leaf).pArrival.getD i 0) ≠ [] := by
    simpa using hne
  have hj : argmaxIdx (leaves.map fun leaf => (probsOf leaf).pArrival.getD i 0) <
      leaves.length := by
    have := argmaxIdx_lt_length hrowne
    simpa using this
  rw [List.getD_eq_getElem _ _ hj]
  exact List.getElem_mem _

/-- The batch length of the sample_max selection tensor equals `n` when every node's
`p_right` column has batch length `n`. -/
theorem arrivalBatchSize_leaves (depth n : ℕ) (f : TreePath → List ℚ)
    (hf : ∀ p, (f p).length = n) :
    arrivalBatchSize (leavesFrom depth [])
      (fun p => (lookupProbs (nodeToProbsFromPRight depth f) p).getD ⟨[], []⟩) = n := by
  obtain ⟨l₀, rest, heq⟩ := List.exists_cons_of_ne_nil (leavesFrom_root_ne_nil depth)
  rw [heq, arrivalBatchSize]
  have hl₀ : l₀.length = depth :=
    (mem_leavesFrom_root depth l₀).mp (heq ▸ List.mem_cons_self l₀ rest)
  exact lookup_pArrival_length depth n f hf l₀ hl₀.le

/-- C6: for every batch of size `n` (every similarity column has batch length `n`),
`forward` under "sample_max" or "greedy" in inference mode returns a list of exactly
`n` leaf references in input order, each a member of the tree's leaves, with logits
equal to the concatenation of the selected leaves' class-logit vectors; `forward`
under "distributed" returns `None` in place of the predicting-leaf list. -/
theorem forward_output_contract (depth numClasses n : ℕ)
    (yVecOf pRightOf : TreePath → List ℚ) (hf : ∀ p, (pRightOf p).length = n) :
    (∀ strategy, strategy = "sample_max" ∨ strategy = "greedy" →
      ∃ out, forward false depth numClasses yVecOf pRightOf strategy = .ok out ∧
        ∃ L, out.predictingLeaves = some L ∧ L.length = n ∧
          (∀ l ∈ L, l ∈ leavesFrom depth []) ∧ out.logits = L.map yVecOf) ∧
    (∀ training, ∃ out,
      forward training depth numClasses yVecOf pRightOf "distributed" = .ok out ∧
      out.predictingLeaves = none) := by
  constructor
  · intro strategy hs
    have hnotdist : strategy ≠ "distributed" := by
      rcases hs with rfl | rfl <;> decide
    simp only [forward, if_neg hnotdist, if_pos (And.intro rfl hs)]
    rcases hs with rfl | rfl
    · -- sample_max
      have hsel : getPredictingLeaves depth
          (fun p => (lookupProbs (nodeToProbsFromPRight depth pRightOf) p).getD ⟨[], []⟩)
          "sample_max" =
          .ok (getMaxPArrivalLeaves (leavesFrom depth [])
            (fun p => (lookupProbs (nodeToProbsFromPRight depth pRightOf) p).getD
              ⟨[], []⟩)) := by
        rw [getPredictingLeaves, if_pos rfl]
      rw [hsel]
      refine ⟨_, rfl, _, rfl, ?_, ?_, rfl⟩
      · rw [getMaxPArrivalLeaves, List.length_map, List.length_range]
        exact arrivalBatchSize_leaves depth n pRightOf hf
      · intro l hl
        exact getMaxPArrivalLeaves_mem (leavesFrom depth []) _
          (leavesFrom_root_ne_nil depth) l hl
    · -- greedy
      have hsel : getPredictingLeaves depth
          (fun p => (lookupProbs (nodeToProbsFromPRight depth pRightOf) p).getD ⟨[], []⟩)
          "greedy" =
          .ok (getPredictingLeavesGreedily depth
            (fun p => (lookupProbs (nodeToProbsFromPRight depth pRightOf) p).getD
              ⟨[], []⟩)) := by
        rw [getPredictingLeaves, if_neg (by decide), if_pos rfl]
      rw [hsel]
      have hb : ((fun p =>
          (lookupProbs (nodeToProbsFromPRight depth pRightOf) p).getD ⟨[], []⟩)
            ([] : TreePath)).batchSize = n := by
        rw [NodeProbabilities.batchSize]
        exact lookup_pArrival_length depth n pRightOf hf [] (by simp)
      obtain ⟨hlen, hmem⟩ := getPredictingLeavesGreedily_spec depth n
        (fun p => (lookupProbs (nodeToProbsFromPRight depth pRightOf) p).getD ⟨[], []⟩) hb
      exact ⟨_, rfl, _, rfl, hlen, hmem, rfl⟩
  · intro training
    simp only [forward, if_pos rfl]
    exact ⟨_, rfl, rfl⟩

/-- C6 witness: the output contract instantiated on a depth-1, one-sample model. -/
theorem forward_output_contract_witness :
    (∃ out, forward false 1 1 (fun _ => [1]) (fun _ => [1/2]) "greedy" = .ok out ∧
      ∃ L, out.predictingLeaves = some L ∧ L.length = 1 ∧
        (∀ l ∈ L, l ∈ leavesFrom 1 []) ∧
        out.logits = L.map (fun _ => [1])) ∧
    (∃ out, forward true 1 1 (fun _ => [1]) (fun _ => [1/2]) "distributed" = .ok out ∧
      out.predictingLeaves = none) :=
  ⟨(forward_output_contract 1 1 1 (fun _ => [1]) (fun _ => [1/2]) (fun _ => rfl)).1
      "greedy" (Or.inr rfl),
   (forward_output_contract 1 1 1 (fun _ => [1]) (fun _ => [1/2]) (fun _ => rfl)).2
      true⟩

/-! ## Claim C1: the leaf EWMA update rule -/

theorem sum_range_map (g : ℕ → ℚ) (n : ℕ) :
    ((List.range n).map g).sum = ∑ i ∈ Finset.range n, g i := by
  induction n with
  | zero => simp
  | succ m ih =>
      rw [List.range_succ, List.map_append, List.sum_append, Finset.sum_range_succ, ih]
      simp

/-- The update rule exactly as claim C1 states it:
`dist_params ← dist_params·(1-alpha) + update_vector·alpha`.  This definition follows
the claim's words (it differs from the source only in scaling the update vector by
`alpha`), for comparison with the source's `updateLeafDistribution`. -/
def updateLeafDistributionClaimed (ewmaAlpha : ℚ) (state : LeafState) (yVec : List ℚ)
    (pArrival : List ℚ) (batchProbs : List (List ℚ)) (oneHot : List (List ℚ)) :
    LeafState :=
  let numClasses := (batchProbs.getD 0 []).length
  let distUpdate : List ℚ := (List.range numClasses).map fun c =>
    ((List.range batchProbs.length).map fun i =>
      pArrival.getD i 0 * yVec.getD c 0 * (oneHot.getD i []).getD c 0 /
        (batchProbs.getD i []).getD c 0).sum
  let newCount := state.updateCount + 1
  let countAlpha : ℚ := 1 / (newCount : ℚ)
  let alpha := max countAlpha ewmaAlpha
  { distParams :=
      List.zipWith (fun d u => d * (1 - alpha) + u * alpha) state.distParams distUpdate,
    updateCount := newCount }

/-- C1 counterexample: the source's update is NOT
`dist_params·(1-alpha) + update_vector·alpha`.  With `fixed_ewma_alpha = 1/2`, a leaf
at update count 1 with `dist_params = [2]`, and a batch giving update vector `[1]`
(one sample, arrival probability 1, leaf logit 0, correct-label batch logit 0), the
effective alpha is `max(1/2, 1/2) = 1/2`; the code produces `2·(1/2) + 1 = [2]`,
while the claim's rule gives `2·(1/2) + 1·(1/2) = [3/2]`. -/
theorem updateLeafDistribution_claim_counterexample :
    updateLeafDistribution (1/2) ⟨[2], 1⟩ [1] [1] [[1]] [[1]] =
      ⟨[2], 2⟩ ∧
    updateLeafDistributionClaimed (1/2) ⟨[2], 1⟩ [1] [1] [[1]] [[1]] =
      ⟨[3/2], 2⟩ ∧
    updateLeafDistribution (1/2) ⟨[2], 1⟩ [1] [1] [[1]] [[1]] ≠
      updateLeafDistributionClaimed (1/2) ⟨[2], 1⟩ [1] [1] [[1]] [[1]] := by
  have h₁ : updateLeafDistribution (1/2) ⟨[2], 1⟩ [1] [1] [[1]] [[1]] =
      ⟨[2], 2⟩ := by
    simp [updateLeafDistribution, List.range_succ, max_self]
    norm_num
  have h₂ : updateLeafDistributionClaimed (1/2) ⟨[2], 1⟩ [1] [1] [[1]] [[1]] =
      ⟨[3/2], 2⟩ := by
    simp [updateLeafDistributionClaimed, List.range_succ, max_self]
    norm_num
  refine ⟨h₁, h₂, ?_⟩
  rw [h₁, h₂]
  intro h
  have := congrArg LeafState.distParams h
  simp at this
  norm_num at this

/-- C1 amended: for every training batch, the leaf distribution update applies
`dist_params ← dist_params·(1-alpha) + update_vector` element-wise (the update vector
is NOT scaled by alpha), where `alpha = max(1/update_count, fixed_ewma_alpha)` for the
incremented update count, and the update vector is the exponentiated log-sum-exp over
the batch of (arrival log-probability at the leaf + the leaf's current logits +
one-hot true-label log-encoding − batch logits) — exponentiated per class `c`:
`Σ_i pArrival[i] · yVec[c] · oneHot[i][c] / batchProbs[i][c]`. -/
theorem updateLeafDistribution_amended (ewmaAlpha : ℚ) (state : LeafState)
    (yVec pArrival : List ℚ) (batchProbs oneHot : List (List ℚ)) :
    (updateLeafDistribution ewmaAlpha state yVec pArrival batchProbs oneHot).updateCount
        = state.updateCount + 1 ∧
    ∀ c, c < state.distParams.length → c < (batchProbs.getD 0 []).length →
      (updateLeafDistribution ewmaAlpha state yVec pArrival batchProbs
          oneHot).distParams.getD c 0 =
        state.distParams.getD c 0 *
            (1 - max (1 / ((state.updateCount : ℚ) + 1)) ewmaAlpha) +
          ∑ i ∈ Finset.range batchProbs.length,
            pArrival.getD i 0 * yVec.getD c 0 * (oneHot.getD i []).getD c 0 /
              (batchProbs.getD i []).getD c 0 := by
  refine ⟨rfl, ?_⟩
  intro c hc₁ hc₂
  simp only [updateLeafDistribution]
  have hlen : (List.zipWith
      (fun d u => d * (1 - max (1 / ((state.updateCount + 1 : ℕ) : ℚ)) ewmaAlpha) + u)
      state.distParams
      ((List.range (batchProbs.getD 0 []).length).map fun cc =>
        ((List.range batchProbs.length).map fun i =>
          pArrival.getD i 0 * yVec.getD cc 0 * (oneHot.getD i []).getD cc 0 /
            (batchProbs.getD i []).getD cc 0).sum)).length =
      min state.distParams.length (batchProbs.getD 0 []).length := by
    rw [List.length_zipWith, List.length_map, List.length_range]
  rw [List.getD_eq_getElem _ _ (by rw [hlen]; omega), List.getElem_zipWith,
    List.getElem_map, List.getElem_range, List.getD_eq_getElem _ _ hc₁,
    sum_range_map]
  push_cast
  ring

/-- C1 witness: the amended update rule evaluated at a concrete class index. -/
theorem updateLeafDistribution_amended_witness :
    (updateLeafDistribution (1/2) ⟨[2], 1⟩ [1] [1] [[1]] [[1]]).updateCount = 1 + 1 ∧
    (updateLeafDistribution (1/2) ⟨[2], 1⟩ [1] [1] [[1]]
        [[1]]).distParams.getD 0 0 =
      ([(2 : ℚ)] : List ℚ).getD 0 0 * (1 - max (1 / ((1 : ℚ) + 1)) (1/2)) +
        ∑ i ∈ Finset.range ([[(1 : ℚ)]] : List (List ℚ)).length,
          ([(1 : ℚ)] : List ℚ).getD i 0 * ([(1 : ℚ)] : List ℚ).getD 0 0 *
              (([[(1 : ℚ)]] : List (List ℚ)).getD i []).getD 0 0 /
            (([[(1 : ℚ)]] : List (List ℚ)).getD i []).getD 0 0 :=
  ⟨(updateLeafDistribution_amended (1/2) ⟨[2], 1⟩ [1] [1] [[1]] [[1]]).1,
   (updateLeafDistribution_amended (1/2) ⟨[2], 1⟩ [1] [1] [[1]] [[1]]).2 0
      (by decide) (by decide)⟩

/-! ## Claim C8: the first update overwrites the prior entirely -/

/-- C8: for a leaf whose update counter is 0 before the call and any configured
`fixed_ewma_alpha ≤ 1`, a single leaf-distribution update makes `dist_params` equal
the raw update vector exactly (the prior `dist_params` contribute nothing, since the
effective alpha is `max(1/1, alpha) = 1`). -/
theorem updateLeafDistribution_first_update (ewmaAlpha : ℚ) (state : LeafState)
    (yVec pArrival : List ℚ) (batchProbs oneHot : List (List ℚ))
    (hcount : state.updateCount = 0) (halpha : ewmaAlpha ≤ 1)
    (hlen : state.distParams.length = (batchProbs.getD 0 []).length) :
    (updateLeafDistribution ewmaAlpha state yVec pArrival batchProbs
        oneHot).distParams =
      (List.range (batchProbs.getD 0 []).length).map fun c =>
        ((List.range batchProbs.length).map fun i =>
          pArrival.getD i 0 * yVec.getD c 0 * (oneHot.getD i []).getD c 0 /
            (batchProbs.getD i []).getD c 0).sum := by
  simp only [updateLeafDistribution, hcount]
  have halpha1 : max (1 / ((0 + 1 : ℕ) : ℚ)) ewmaAlpha = 1 := by
    rw [show ((0 + 1 : ℕ) : ℚ) = 1 by norm_num]
    rw [div_one]
    exact max_eq_left halpha
  rw [halpha1]
  apply List.ext_getElem
  · rw [List.length_zipWith, List.length_map, List.length_range, hlen, min_self]
  · intro c h₁ h₂
    rw [List.getElem_zipWith]
    ring

/-- C8 witness: a zero-count leaf with stale `dist_params = [7]` is overwritten by the
raw update vector. -/
theorem updateLeafDistribution_first_update_witness :
    (updateLeafDistribution (1/2) ⟨[7], 0⟩ [1] [1] [[1]] [[1]]).distParams =
      (List.range ([[(1 : ℚ)]] : List (List ℚ)).length).map fun c =>
        ((List.range ([[(1 : ℚ)]] : List (List ℚ)).length).map fun i =>
          ([(1 : ℚ)] : List ℚ).getD i 0 * ([(1 : ℚ)] : List ℚ).getD c 0 *
              (([[(1 : ℚ)]] : List (List ℚ)).getD i []).getD c 0 /
            (([[(1 : ℚ)]] : List (List ℚ)).getD i []).getD c 0).sum := by
  have h := updateLeafDistribution_first_update (1/2) ⟨[7], 0⟩ [1] [1] [[1]] [[1]]
    rfl (by norm_num) (by decide)
  simpa using h

/-! ## Claim C9: every leaf is updated, none skipped -/

/-- C9: every call to `update_leaf_distributions` increments the update counter of
every leaf of the tree by exactly 1 and applies the EWMA update to every leaf
(including leaves receiving zero arrival mass — the update is applied to every path of
leaf length, unconditionally); no leaf is skipped. -/
theorem updateLeafDistributions_updates_every_leaf (depth : ℕ) (ewmaAlpha : ℚ)
    (states : TreePath → LeafState) (yVecOf : TreePath → List ℚ)
    (probsOf : TreePath → NodeProbabilities) (yTrue : List ℕ)
    (batchProbs : List (List ℚ)) (p : TreePath) (hp : p.length = depth) :
    (updateLeafDistributions depth ewmaAlpha states yVecOf probsOf yTrue batchProbs
        p).updateCount = (states p).updateCount + 1 ∧
    updateLeafDistributions depth ewmaAlpha states yVecOf probsOf yTrue batchProbs p =
      updateLeafDistribution ewmaAlpha (states p) (yVecOf p) (probsOf p).pArrival
        batchProbs (oneHotRows (batchProbs.getD 0 []).length yTrue) := by
  have hmem : p ∈ leavesFrom depth [] := (mem_leavesFrom_root depth p).mpr hp
  constructor
  · simp only [updateLeafDistributions, if_pos hmem]
    rfl
  · simp only [updateLeafDistributions, if_pos hmem]

/-- C9 witness: both leaves of a depth-1 tree are updated, including the right leaf,
which receives zero arrival mass. -/
theorem updateLeafDistributions_updates_every_leaf_witness :
    ((updateLeafDistributions 1 (1/2) (fun _ => ⟨[2], 1⟩) (fun _ => [1])
        (fun p => if p = [true] then ⟨[0], [0]⟩ else ⟨[1], [0]⟩) [0] [[1]]
        [true]).updateCount =
      ((fun (_ : TreePath) => (⟨[2], 1⟩ : LeafState)) [true]).updateCount + 1) ∧
    updateLeafDistributions 1 (1/2) (fun _ => ⟨[2], 1⟩) (fun _ => [1])
        (fun p => if p = [true] then ⟨[0], [0]⟩ else ⟨[1], [0]⟩) [0] [[1]] [true] =
      updateLeafDistribution (1/2)
        ((fun (_ : TreePath) => (⟨[2], 1⟩ : LeafState)) [true])
        ((fun (_ : TreePath) => [(1 : ℚ)]) [true])
        ((fun p => if p = [true] then (⟨[0], [0]⟩ : NodeProbabilities)
            else ⟨[1], [0]⟩) [true]).pArrival
        [[1]] (oneHotRows (([[(1 : ℚ)]] : List (List ℚ)).getD 0 []).length [0]) :=
  updateLeafDistributions_updates_every_leaf 1 (1/2) (fun _ => ⟨[2], 1⟩)
    (fun _ => [1]) (fun p => if p = [true] then ⟨[0], [0]⟩ else ⟨[1], [0]⟩) [0] [[1]]
    [true] rfl

/-! ## Claim C2: rationalization

The claim holds of `ProtoTree.rationalize` in `src/proto/models.py` (one
rationalization per (image, leaf) pair; the auxiliary theorems below record this),
but the version in `src/prototree/models.py` appends inside the ancestor loop and
returns `D` rationalizations per pair. -/

/-- C2, evaluated at the failing input: on a depth-2 tree, for ONE (image, leaf)
pair, the `src/prototree/models.py` `rationalize` returns TWO rationalizations
(one per ancestor, since the append sits inside the ancestor loop), where the claim
requires exactly one per pair; the `src/proto/models.py` version returns one. -/
theorem prototreeRationalize_length_at_failing_input :
    (prototreeRationalize 2 (fun _ => 0) (fun (_ : ℕ) _ => [0]) [0]
      [[false, true]]).length = 2 ∧
    (rationalize 2 (fun (_ : ℕ) _ => [0]) [0] [[false, true]]).length = 1 := by
  constructor
  · rfl
  · rfl

/-- `src/proto/models.py`'s `rationalize` produces exactly one rationalization per
zipped (image, leaf) pair (with equal-length inputs: exactly `n` of them). -/
theorem rationalize_length {Img : Type} (depth : ℕ) (distsOf : Img → ℕ → List ℚ)
    (xs : List Img) (predictingLeaves : List TreePath)
    (hlen : xs.length = predictingLeaves.length) :
    (rationalize depth distsOf xs predictingLeaves).length = xs.length := by
  rw [rationalize, List.length_map, List.length_zip, hlen, min_self]

/-- In each rationalization produced by `src/proto/models.py`'s `rationalize`, the
evidence entries are the leaf's ancestors in strict root-to-leaf order (for a leaf of
a depth-`D` tree, its `D` proper prefixes in order of increasing length), and the
`proto_presents` flag at position `i` is `is_right_child` of the next node on the
path, i.e. of ancestor `i+1`, or of the leaf itself at the end. -/
theorem rationalize_evidence {Img : Type} (depth : ℕ) (distsOf : Img → ℕ → List ℚ)
    (xs : List Img) (predictingLeaves : List TreePath)
    (r : LeafRationalization Img) (hr : r ∈ rationalize depth distsOf xs predictingLeaves)
    (hleaf : r.leaf.length = depth) :
    r.ancestorSimilarities.length = depth ∧
    (r.ancestorSimilarities.map fun s => s.internalNode) = ancestors r.leaf ∧
    ∀ i < depth,
      r.protoPresents.getD i false =
        isRightChild ((ancestors r.leaf ++ [r.leaf]).getD (i + 1) []) := by
  rw [rationalize] at hr
  obtain ⟨⟨x, leaf⟩, -, rfl⟩ := List.mem_map.mp hr
  dsimp only at hleaf ⊢
  have hlenanc : (ancestors leaf).length = depth := by
    rw [ancestors, List.length_map, List.length_range, hleaf]
  have hcomp : (fun (s : ImageProtoSimilarity Img) => s.internalNode) ∘
      (fun a => imgProtoSimilarity a x (distsOf x (nodeToProtoIdx depth a))) = id := rfl
  refine ⟨?_, ?_, ?_⟩
  · rw [List.length_map, hlenanc]
  · rw [List.map_map, hcomp, List.map_id]
  · intro i hi
    have hic : (((ancestors leaf).map fun a =>
          imgProtoSimilarity a x (distsOf x (nodeToProtoIdx depth a))).drop 1).map
          (fun s => s.internalNode) = (ancestors leaf).drop 1 := by
      rw [← List.map_drop, List.map_map, hcomp, List.map_id]
    rw [LeafRationalization.protoPresents]
    simp only []
    rw [hic]
    have hlenL : ((ancestors leaf).drop 1 ++ [leaf]).length = depth := by
      rw [List.length_append, List.length_drop, hlenanc]
      simp
      omega
    rw [List.getD_eq_getElem _ _ (by rw [List.length_map, hlenL]; exact hi),
      List.getElem_map,
      List.getD_eq_getElem _ _ (by rw [List.length_append, hlenanc]; simp; omega)]
    congr 1
    by_cases hcase : i + 1 < depth
    · rw [List.getElem_append_left (by rw [List.length_drop, hlenanc]; omega),
        List.getElem_append_left (by rw [hlenanc]; omega),
        List.getElem_drop]
      congr 1
      omega
    · have h1A : (ancestors leaf).length ≤ i + 1 := by rw [hlenanc]; omega
      rw [List.getElem_append_right (by rw [List.length_drop, hlenanc]; omega),
        List.getElem_append_right h1A]
      congr 1
      rw [List.length_drop, hlenanc]
      omega

end ProtoTree
